import Mathlib

/-!
Shallow embedding of `src/laytr/kfeat.py` (the laytr k-mer featurization
module) and verification of its specification.

Modelling conventions:
* Python strings are `List Char`; a Python `dict` lookup that can raise
  `KeyError` is an `Option`-returning function; a Python function that can
  raise is `Option`-valued (`none` = exception propagates).
* numpy float64 values are modelled by the type `F64`: exact rationals for
  finite values, plus the IEEE special values `nan`, `posInf`, `negInf`
  that numpy produces on division by zero (numpy emits a warning, not an
  exception, for `0.0/0` and `x/0`).
* `pysam.FastaFile(...).fetch` is an external collaborator (the spec's
  Reference Accessor); it is modelled as an oracle function
  `RefAccessor : String → ℕ → ℕ → Option (List Char)` where `none` models
  a reference-lookup failure (unknown chromosome / bad coordinates).
* `multiprocessing.Pool(nproc).map` is modelled by its documented
  semantics: an order-preserving map over the input list in which any
  worker exception propagates and fails the batch; `Pool(0)` raises
  `ValueError`, modelled as `none` for `nproc = 0`.
-/

namespace Laytr

/-- A numpy float64 value: a finite (exactly represented) rational, or one
of the IEEE special values that arise from division by zero. -/
inductive F64 where
  | fin (q : ℚ)
  | posInf
  | negInf
  | nan
deriving DecidableEq, Repr

/-- numpy elementwise division of a (finite, here always a count) float64
value by an integer scalar: `q / 0` is `nan` when `q = 0`, `±inf`
otherwise; for a nonzero divisor it is exact rational division. Models
`ret /= number_of_kmers`. -/
def npDivInt (q : ℚ) (d : ℤ) : F64 :=
  if d = 0 then
    if q = 0 then F64.nan else if 0 < q then F64.posInf else F64.negInf
  else F64.fin (q / d)

/-- `NUCS = {'A':0, 'G':1, 'C':2, 'T':3}`; `NUCS[c]` raises `KeyError`
(`none`) for any other character. -/
def NUCS (c : Char) : Option ℕ :=
  if c = 'A' then some 0
  else if c = 'G' then some 1
  else if c = 'C' then some 2
  else if c = 'T' then some 3
  else none

/-- The loop of `kmer_index`: `for pos, nuc in enumerate(kmer): index +=
NUCS[nuc] << pos * 2`, threading the position and accumulator. -/
def kmerIndexGo : List Char → ℕ → ℕ → Option ℕ
  | [], _, index => some index
  | nuc :: rest, pos, index =>
    (NUCS nuc).bind (fun v => kmerIndexGo rest (pos + 1) (index + (v <<< (pos * 2))))

/-- `kmer_index(kmer)`: the array index of a kmer. -/
def kmer_index (kmer : List Char) : Option ℕ :=
  kmerIndexGo kmer 0 0

/-- `number_of_kmers = len(seq) - k + 1` (a Python `int`, possibly ≤ 0). -/
def numWindows (seq : List Char) (k : ℕ) : ℤ :=
  (seq.length : ℤ) - k + 1

/-- The Python slice `seq[i:i+k]`. -/
def window (seq : List Char) (k i : ℕ) : List Char :=
  (seq.drop i).take k

/-- `ret[j] += 1` on a numpy array: in-bounds increments the entry,
out-of-bounds raises `IndexError` (`none`). -/
def incAt (l : List ℕ) (j : ℕ) : Option (List ℕ) :=
  if j < l.length then some (l.set j (l.getD j 0 + 1)) else none

/-- Exception-propagating fold, modelling a Python `for` loop whose body
may raise. -/
def foldOpt {α β : Type} (f : β → α → Option β) : β → List α → Option β
  | b, [] => some b
  | b, a :: l => (f b a).bind (fun b' => foldOpt f b' l)

/-- Exception-propagating map, modelling a Python comprehension /
`pool.map` whose element computations may raise. -/
def mapOpt {α β : Type} (f : α → Option β) : List α → Option (List β)
  | [] => some []
  | a :: l => (f a).bind (fun b => (mapOpt f l).map (fun bs => b :: bs))

/-- The counting loop of `kfeat`: `ret = np.zeros(4 ** k)` followed by
`for i in range(number_of_kmers): ret[kmer_index(seq[i:i+k])] += 1`
(`range` of a non-positive bound is empty, hence `.toNat`). -/
def kfeatCounts (seq : List Char) (k : ℕ) : Option (List ℕ) :=
  foldOpt (fun acc i => (kmer_index (window seq k i)).bind (incAt acc))
    (List.replicate (4 ^ k) 0)
    (List.range (numWindows seq k).toNat)

/-- `kfeat(seq, k, normalize)`: the kmer featurization of a sequence.
When `normalize` the code executes `ret /= number_of_kmers`
unconditionally, including for a zero or negative divisor. -/
def kfeat (seq : List Char) (k : ℕ) (normalize : Bool) : Option (List F64) :=
  (kfeatCounts seq k).map (fun counts =>
    if normalize then counts.map (fun c : ℕ => npDivInt (c : ℚ) (numWindows seq k))
    else counts.map (fun c : ℕ => F64.fin (c : ℚ)))

/-- A nested numpy array as built by `np.array([...])` in `kfeats`; the
recursion only ever bottoms out at an empty sequence. -/
inductive NpArray where
  | node (rows : List NpArray)

/-- `kfeats(seqs, k, normalize) = np.array([kfeats(_, k, normalize) for _
in seqs])` — note the body calls `kfeats` itself, not `kfeat`; iterating a
Python string yields its characters as length-1 strings. The `fuel`
argument models Python's bounded recursion depth: `none` at fuel 0 is the
`RecursionError`. -/
def kfeats : ℕ → List (List Char) → ℕ → Bool → Option NpArray
  | 0, _, _, _ => none
  | fuel + 1, seqs, k, normalize =>
    (mapOpt (fun s => kfeats fuel (s.map (fun c => [c])) k normalize) seqs).map
      NpArray.node

/-- The external Reference Accessor: `(chrom, start, end) ↦` the fetched
nucleotide string, or `none` on a lookup failure. -/
def RefAccessor : Type := String → ℕ → ℕ → Option (List Char)

/-- `NUCFILT = re.compile("[^ATCG]")`; `NUCFILT.sub("", s)` deletes every
character not in `{A,T,C,G}` (case-sensitive). -/
def nucfiltSub (s : List Char) : List Char :=
  s.filter (fun c => c = 'A' || c = 'T' || c = 'C' || c = 'G')

/-- `get_features(region, ref_fn, k, normalize)`: fetch the region's
sequence from the reference, strip non-ACGT characters, featurize. -/
def get_features (region : String × ℕ × ℕ) (ref : RefAccessor)
    (k : ℕ) (normalize : Bool) : Option (List F64) :=
  match region with
  | (chrom, start, stop) =>
    (ref chrom start stop).bind (fun seq => kfeat (nucfiltSub seq) k normalize)

/-- `np.vstack([result])`: stacking the collected rows; for an empty
result list numpy produces a single empty row (shape `(1, 0)`). -/
def vstackSingle (result : List (List F64)) : List (List F64) :=
  if result.isEmpty then [[]] else result

/-- `regions_to_kmers(regions, reference, k, nproc)`: kmer featurization
for a set of regions over a reference. `partial(get_features,
ref_fn=reference, k=k)` leaves `normalize` at its default `True`;
`pool.map` is an order-preserving map whose first worker exception fails
the batch; `Pool(0)` raises `ValueError` (`none`). -/
def regions_to_kmers (regions : List (String × ℕ × ℕ)) (reference : RefAccessor)
    (k : ℕ) (nproc : ℕ) : Option (List (List F64)) :=
  if nproc = 0 then none
  else (mapOpt (fun r => get_features r reference k true) regions).map vstackSingle

/-! ### Helper definitions used by the statements -/

/-- The value of a little-endian base-4 digit list (position 0 least
significant), the mathematical reading of the encoder's accumulator. -/
def val4 : List ℕ → ℕ
  | [] => 0
  | d :: ds => d + 4 * val4 ds

/-- Sum of a float64 list when every entry is finite; `none` if a special
value (nan/inf) occurs. -/
def finSum : List F64 → Option ℚ
  | [] => some 0
  | F64.fin q :: rest => (finSum rest).map (fun s => q + s)
  | _ => none

/-- The 16 two-letter nucleotide strings, listed in encoder-index order. -/
def kmers2 : List (List Char) :=
  [['A','A'], ['G','A'], ['C','A'], ['T','A'],
   ['A','G'], ['G','G'], ['C','G'], ['T','G'],
   ['A','C'], ['G','C'], ['C','C'], ['T','C'],
   ['A','T'], ['G','T'], ['C','T'], ['T','T']]

/-- Test accessor: every lookup yields `"ACNGT"`. -/
def refC6 : RefAccessor := fun _ _ _ => some ['A','C','N','G','T']

/-- Test accessor: every lookup yields `"ACG"`. -/
def refC1 : RefAccessor := fun _ _ _ => some ['A','C','G']

/-- Test accessor: every lookup fails (unknown chromosome / coordinates). -/
def refC9fail : RefAccessor := fun _ _ _ => none

/-- Test accessor for the end-to-end example: `("chr1", 0, 10)` resolves to
`"ACGTACGTAA"` and `("chr1", 100, 105)` to `"ACG"`. -/
def refC4 : RefAccessor := fun chrom start stop =>
  if chrom = "chr1" && start = 0 && stop = 10 then
    some ['A','C','G','T','A','C','G','T','A','A']
  else if chrom = "chr1" && start = 100 && stop = 105 then
    some ['A','C','G']
  else none

/-! ### Lemmas about the encoder -/

lemma NUCS_lt_four {c : Char} {v : ℕ} (h : NUCS c = some v) : v < 4 := by
  unfold NUCS at h
  split_ifs at h <;> simp_all <;> omega

lemma NUCS_inj {c₁ c₂ : Char} {v : ℕ} (h₁ : NUCS c₁ = some v)
    (h₂ : NUCS c₂ = some v) : c₁ = c₂ := by
  unfold NUCS at h₁ h₂
  split_ifs at h₁ h₂ <;> simp_all <;> omega

lemma val4_eq_sum (ds : List ℕ) :
    val4 ds = ∑ pos ∈ Finset.range ds.length, ds.getD pos 0 * 4 ^ pos := by
  induction ds with
  | nil => simp [val4]
  | cons d ds ih =>
    rw [val4, ih, List.length_cons, Finset.sum_range_succ', Finset.mul_sum]
    simp only [List.getD_cons_succ, List.getD_cons_zero, pow_zero, mul_one]
    rw [add_comm]
    congr 1
    refine Finset.sum_congr rfl (fun x _ => by ring)

lemma val4_lt {ds : List ℕ} (h : ∀ d ∈ ds, d < 4) :
    val4 ds < 4 ^ ds.length := by
  induction ds with
  | nil => simp [val4]
  | cons d ds ih =>
    have hd : d < 4 := h d (List.mem_cons_self d ds)
    have ht : val4 ds < 4 ^ ds.length := ih (fun x hx => h x (List.mem_cons_of_mem d hx))
    rw [List.length_cons, pow_succ, val4]
    omega

lemma val4_inj : ∀ {ds₁ ds₂ : List ℕ}, ds₁.length = ds₂.length →
    (∀ d ∈ ds₁, d < 4) → (∀ d ∈ ds₂, d < 4) → val4 ds₁ = val4 ds₂ → ds₁ = ds₂ := by
  intro ds₁
  induction ds₁ with
  | nil =>
    intro ds₂ hlen _ _ _
    have h : ds₂ = [] := List.length_eq_zero.mp hlen.symm
    rw [h]
  | cons d ds ih =>
    intro ds₂ hlen h₁ h₂ hval
    cases ds₂ with
    | nil => simp at hlen
    | cons e es =>
      rw [val4, val4] at hval
      have hd : d < 4 := h₁ d (List.mem_cons_self d ds)
      have he : e < 4 := h₂ e (List.mem_cons_self e es)
      have hde : d = e := by omega
      have hrest : val4 ds = val4 es := by omega
      have : ds = es := ih (by simpa using hlen)
        (fun x hx => h₁ x (List.mem_cons_of_mem d hx))
        (fun x hx => h₂ x (List.mem_cons_of_mem e hx)) hrest
      rw [hde, this]

lemma mapOpt_cons {α β : Type} (f : α → Option β) (a : α) (l : List α) :
    mapOpt f (a :: l) = (f a).bind (fun b => (mapOpt f l).map (fun bs => b :: bs)) :=
  rfl

lemma mapOpt_length {α β : Type} {f : α → Option β} :
    ∀ {l : List α} {r : List β}, mapOpt f l = some r → r.length = l.length := by
  intro l
  induction l with
  | nil => intro r h; simp [mapOpt] at h; simp [← h]
  | cons a l ih =>
    intro r h
    rw [mapOpt_cons] at h
    cases hf : f a with
    | none => rw [hf] at h; simp at h
    | some b =>
      rw [hf] at h
      cases hm : mapOpt f l with
      | none => rw [hm] at h; simp at h
      | some bs =>
        rw [hm] at h
        simp at h
        subst h
        simp [ih hm]

lemma mapOpt_isSome {α β : Type} {f : α → Option β} :
    ∀ {l : List α}, (∀ a ∈ l, f a ≠ none) → ∃ r, mapOpt f l = some r := by
  intro l
  induction l with
  | nil => intro _; exact ⟨[], rfl⟩
  | cons a l ih =>
    intro h
    cases hf : f a with
    | none => exact absurd hf (h a (List.mem_cons_self a l))
    | some b =>
      obtain ⟨r, hr⟩ := ih (fun x hx => h x (List.mem_cons_of_mem a hx))
      exact ⟨b :: r, by rw [mapOpt_cons, hf, hr]; rfl⟩

lemma mapOpt_none {α β : Type} {f : α → Option β} :
    ∀ {l : List α} {a : α}, a ∈ l → f a = none → mapOpt f l = none := by
  intro l
  induction l with
  | nil => intro a h; simp at h
  | cons x l ih =>
    intro a h hfa
    rw [mapOpt_cons]
    rcases List.mem_cons.mp h with h | h
    · rw [← h, hfa]
      rfl
    · cases hf : f x with
      | none => rfl
      | some b => rw [ih h hfa]; rfl

lemma mapOpt_get {α β : Type} {f : α → Option β} :
    ∀ {l : List α} {r : List β}, mapOpt f l = some r →
      ∀ i (h₁ : i < l.length) (h₂ : i < r.length),
        f (l.get ⟨i, h₁⟩) = some (r.get ⟨i, h₂⟩) := by
  intro l
  induction l with
  | nil => intro r _ i h₁; simp at h₁
  | cons a l ih =>
    intro r h i h₁ h₂
    rw [mapOpt_cons] at h
    cases hf : f a with
    | none => rw [hf] at h; simp at h
    | some b =>
      rw [hf] at h
      cases hm : mapOpt f l with
      | none => rw [hm] at h; simp at h
      | some bs =>
        rw [hm] at h
        simp at h
        subst h
        cases i with
        | zero => simpa using hf
        | succ j => exact ih hm j (by simpa using h₁) (by simpa using h₂)

lemma mapOpt_NUCS_inj : ∀ {l₁ l₂ : List Char} {ds : List ℕ},
    mapOpt NUCS l₁ = some ds → mapOpt NUCS l₂ = some ds → l₁ = l₂ := by
  intro l₁
  induction l₁ with
  | nil =>
    intro l₂ ds h₁ h₂
    simp [mapOpt] at h₁
    subst h₁
    cases l₂ with
    | nil => rfl
    | cons c l =>
      rw [mapOpt_cons] at h₂
      cases hf : NUCS c with
      | none => rw [hf] at h₂; simp at h₂
      | some v =>
        rw [hf] at h₂
        cases hm : mapOpt NUCS l with
        | none => rw [hm] at h₂; simp at h₂
        | some bs => rw [hm] at h₂; simp at h₂
  | cons c₁ t₁ ih =>
    intro l₂ ds h₁ h₂
    rw [mapOpt_cons] at h₁
    cases hf₁ : NUCS c₁ with
    | none => rw [hf₁] at h₁; simp at h₁
    | some v₁ =>
      rw [hf₁] at h₁
      cases hm₁ : mapOpt NUCS t₁ with
      | none => rw [hm₁] at h₁; simp at h₁
      | some ds₁ =>
        rw [hm₁] at h₁
        simp at h₁
        cases l₂ with
        | nil =>
          simp [mapOpt] at h₂
          rw [h₂] at h₁
          simp at h₁
        | cons c₂ t₂ =>
          rw [mapOpt_cons] at h₂
          cases hf₂ : NUCS c₂ with
          | none => rw [hf₂] at h₂; simp at h₂
          | some v₂ =>
            rw [hf₂] at h₂
            cases hm₂ : mapOpt NUCS t₂ with
            | none => rw [hm₂] at h₂; simp at h₂
            | some ds₂ =>
              rw [hm₂] at h₂
              simp at h₂
              rw [← h₁] at h₂
              injection h₂ with hv hds
              have hc : c₁ = c₂ := NUCS_inj hf₁ (by rw [hf₂, hv])
              have ht : t₁ = t₂ := ih hm₁ (by rw [hm₂, hds])
              rw [hc, ht]

lemma kmerIndexGo_some : ∀ {l : List Char} {ds : List ℕ} (pos index : ℕ),
    mapOpt NUCS l = some ds →
    kmerIndexGo l pos index = some (index + val4 ds * 4 ^ pos) := by
  intro l
  induction l with
  | nil =>
    intro ds pos index h
    simp [mapOpt] at h
    subst h
    simp [kmerIndexGo, val4]
  | cons c rest ih =>
    intro ds pos index h
    rw [mapOpt_cons] at h
    cases hf : NUCS c with
    | none => rw [hf] at h; simp at h
    | some v =>
      rw [hf] at h
      cases hm : mapOpt NUCS rest with
      | none => rw [hm] at h; simp at h
      | some ds' =>
        rw [hm] at h
        simp at h
        rw [kmerIndexGo, hf, Option.some_bind]
        rw [ih (pos + 1) (index + (v <<< (pos * 2))) hm]
        congr 1
        rw [← h, val4, Nat.shiftLeft_eq]
        have h4 : (2 : ℕ) ^ (pos * 2) = 4 ^ pos := by
          rw [mul_comm, pow_mul]
          norm_num
        rw [h4, pow_succ]
        ring

lemma kmerIndexGo_none : ∀ {l : List Char} (pos index : ℕ),
    (∃ c ∈ l, NUCS c = none) → kmerIndexGo l pos index = none := by
  intro l
  induction l with
  | nil => intro _ _ h; simp at h
  | cons c rest ih =>
    intro pos index h
    rw [kmerIndexGo]
    cases hf : NUCS c with
    | none => rfl
    | some v =>
      obtain ⟨x, hx, hfx⟩ := h
      rcases List.mem_cons.mp hx with h | h
      · rw [h] at hfx
        rw [hfx] at hf
        simp at hf
      · rw [Option.some_bind, ih _ _ ⟨x, h, hfx⟩]

lemma kmer_index_eq {l : List Char} {ds : List ℕ} (h : mapOpt NUCS l = some ds) :
    kmer_index l = some (val4 ds) := by
  rw [kmer_index, kmerIndexGo_some 0 0 h]
  simp

lemma digits_lt_four {l : List Char} {ds : List ℕ}
    (h : mapOpt NUCS l = some ds) : ∀ d ∈ ds, d < 4 := by
  intro d hd
  obtain ⟨m, hm⟩ := List.mem_iff_get.mp hd
  have hm' : m.val < l.length := by
    rw [← mapOpt_length h]
    exact m.isLt
  have hv := mapOpt_get h m.val hm' m.isLt
  rw [hm] at hv
  exact NUCS_lt_four hv

/-! ### Lemmas about array increments and the counting fold -/

lemma getD_set_self : ∀ (l : List ℕ) (j v : ℕ), j < l.length →
    (l.set j v).getD j 0 = v := by
  intro l
  induction l with
  | nil => intro j v h; simp at h
  | cons x l ih =>
    intro j v h
    cases j with
    | zero => rfl
    | succ i => exact ih i v (by simpa using h)

lemma getD_set_ne : ∀ (l : List ℕ) (j t v : ℕ), j ≠ t →
    (l.set j v).getD t 0 = l.getD t 0 := by
  intro l
  induction l with
  | nil => intro j t v _; simp
  | cons x l ih =>
    intro j t v h
    cases j with
    | zero =>
      cases t with
      | zero => exact absurd rfl h
      | succ s => rfl
    | succ i =>
      cases t with
      | zero => rfl
      | succ s => exact ih i s v (by omega)

lemma sum_set_inc : ∀ (l : List ℕ) (j : ℕ), j < l.length →
    (l.set j (l.getD j 0 + 1)).sum = l.sum + 1 := by
  intro l
  induction l with
  | nil => intro j h; simp at h
  | cons x l ih =>
    intro j h
    cases j with
    | zero => simp [List.getD_cons_zero]; omega
    | succ i =>
      have := ih i (by simpa using h)
      simp only [List.getD_cons_succ, List.set_cons_succ, List.sum_cons, this]
      omega

lemma foldOpt_inc_spec : ∀ (js : List ℕ) (acc : List ℕ),
    (∀ j ∈ js, j < acc.length) →
    ∃ res, foldOpt (fun a j => incAt a j) acc js = some res ∧
      res.length = acc.length ∧
      res.sum = acc.sum + js.length ∧
      ∀ t, res.getD t 0 = acc.getD t 0 + js.count t := by
  intro js
  induction js with
  | nil =>
    intro acc _
    exact ⟨acc, rfl, rfl, by simp, fun t => by simp⟩
  | cons j js ih =>
    intro acc h
    have hj : j < acc.length := h j (List.mem_cons_self j js)
    have hstep : incAt acc j = some (acc.set j (acc.getD j 0 + 1)) := by
      rw [incAt, if_pos hj]
    obtain ⟨res, hres, hlen, hsum, hcount⟩ :=
      ih (acc.set j (acc.getD j 0 + 1))
        (fun x hx => by rw [List.length_set]; exact h x (List.mem_cons_of_mem j hx))
    refine ⟨res, ?_, by rw [hlen, List.length_set], ?_, ?_⟩
    · rw [foldOpt, hstep, Option.some_bind, hres]
    · rw [hsum, sum_set_inc acc j hj, List.length_cons]
      omega
    · intro t
      rw [hcount t]
      by_cases hjt : j = t
      · subst hjt
        rw [getD_set_self acc j _ hj, List.count_cons_self]
        omega
      · rw [getD_set_ne acc j t _ hjt,
          List.count_cons_of_ne (fun h => hjt h.symm)]

lemma foldOpt_bind_eq {g : ℕ → Option ℕ} {f : ℕ → ℕ} :
    ∀ (is : List ℕ) (acc : List ℕ), (∀ i ∈ is, g i = some (f i)) →
    foldOpt (fun a i => (g i).bind (incAt a)) acc is =
      foldOpt (fun a j => incAt a j) acc (is.map f) := by
  intro is
  induction is with
  | nil => intro acc _; rfl
  | cons i is ih =>
    intro acc h
    rw [List.map_cons, foldOpt, foldOpt, h i (List.mem_cons_self i is), Option.some_bind]
    cases hs : incAt acc (f i) with
    | none => simp
    | some acc' =>
      simp only [Option.some_bind]
      exact ih acc' (fun x hx => h x (List.mem_cons_of_mem i hx))

/-! ### Lemmas about windows -/

lemma window_length {seq : List Char} {k i : ℕ} (h : i + k ≤ seq.length) :
    (window seq k i).length = k := by
  rw [window, List.length_take, List.length_drop]
  omega

lemma window_mem {seq : List Char} {k i : ℕ} {c : Char}
    (h : c ∈ window seq k i) : c ∈ seq := by
  rw [window] at h
  exact List.mem_of_mem_drop (List.mem_of_mem_take h)

lemma numWindows_toNat {seq : List Char} {k : ℕ} (h : k ≤ seq.length) :
    (numWindows seq k).toNat = seq.length - k + 1 := by
  rw [numWindows]
  omega

/-- Main specification of the counting loop: on a fully valid sequence of
length at least `k`, it succeeds, the histogram has length `4 ^ k`, its
total is the window count, and an index no window encodes to stays 0. -/
lemma kfeatCounts_spec {seq : List Char} {k : ℕ}
    (hvalid : ∀ c ∈ seq, NUCS c ≠ none) (hk : k ≤ seq.length) :
    ∃ counts, kfeatCounts seq k = some counts ∧
      counts.length = 4 ^ k ∧
      counts.sum = seq.length - k + 1 ∧
      ∀ t, (∀ i < seq.length - k + 1, kmer_index (window seq k i) ≠ some t) →
        counts.getD t 0 = 0 := by
  classical
  set W := seq.length - k + 1 with hW
  have hwin : ∀ i < W, ∃ ds, mapOpt NUCS (window seq k i) = some ds ∧
      ds.length = k ∧ val4 ds < 4 ^ k := by
    intro i hi
    have hik : i + k ≤ seq.length := by omega
    obtain ⟨ds, hds⟩ := mapOpt_isSome
      (fun c hc => hvalid c (window_mem hc))
    refine ⟨ds, hds, ?_, ?_⟩
    · rw [mapOpt_length hds, window_length hik]
    · have hlt : ∀ d ∈ ds, d < 4 := by
        intro d hd
        have hlen := mapOpt_length hds
        obtain ⟨m, hm⟩ := List.mem_iff_get.mp hd
        have hm' : m.val < (window seq k i).length := by
          rw [← hlen]; exact m.isLt
        have := mapOpt_get hds m.val hm' m.isLt
        rw [hm] at this
        exact NUCS_lt_four this
      have := val4_lt hlt
      rw [mapOpt_length hds, window_length hik] at this
      exact this
  choose dsOf hdsOf hdsLen hdsLt using hwin
  have hrange : ∀ i ∈ List.range W, ∃ hi : i < W,
      kmer_index (window seq k i) = some (val4 (dsOf i hi)) := by
    intro i hi
    have hi' : i < W := List.mem_range.mp hi
    exact ⟨hi', kmer_index_eq (hdsOf i hi')⟩
  -- rewrite the dependent choice into a plain index function
  have hfun : ∃ f : ℕ → ℕ, ∀ i < W,
      kmer_index (window seq k i) = some (f i) ∧ f i < 4 ^ k := by
    refine ⟨fun i => if hi : i < W then val4 (dsOf i hi) else 0, ?_⟩
    intro i hi
    dsimp only
    rw [dif_pos hi]
    exact ⟨kmer_index_eq (hdsOf i hi), hdsLt i hi⟩
  obtain ⟨f, hf⟩ := hfun
  have heq : kfeatCounts seq k =
      foldOpt (fun a j => incAt a j) (List.replicate (4 ^ k) 0)
        ((List.range W).map f) := by
    rw [kfeatCounts, numWindows_toNat hk, ← hW]
    exact foldOpt_bind_eq (List.range W) _
      (fun i hi => (hf i (List.mem_range.mp hi)).1)
  have hbound : ∀ j ∈ (List.range W).map f, j < (List.replicate (4 ^ k) (0 : ℕ)).length := by
    intro j hj
    rw [List.length_replicate]
    obtain ⟨i, hi, rfl⟩ := List.mem_map.mp hj
    exact (hf i (List.mem_range.mp hi)).2
  obtain ⟨res, hres, hlen, hsum, hcount⟩ := foldOpt_inc_spec ((List.range W).map f) _ hbound
  refine ⟨res, by rw [heq, hres], ?_, ?_, ?_⟩
  · rw [hlen, List.length_replicate]
  · rw [hsum, List.sum_replicate, List.length_map, List.length_range]
    simp
  · intro t ht
    rw [hcount t]
    have hzero : ((List.range W).map f).count t = 0 := by
      rw [List.count_eq_zero]
      intro hmem
      obtain ⟨i, hi, hfi⟩ := List.mem_map.mp hmem
      have hi' : i < W := List.mem_range.mp hi
      exact ht i hi' (by rw [(hf i hi').1, hfi])
    rw [hzero]
    simp

/-! ### Lemmas about normalization and the orchestrator -/

lemma finSum_map_fin (g : ℕ → ℚ) :
    ∀ l : List ℕ, finSum (l.map (fun c => F64.fin (g c))) = some (l.map g).sum := by
  intro l
  induction l with
  | nil => simp [finSum]
  | cons c l ih => simp [finSum, ih]

lemma sum_map_div (l : List ℕ) (d : ℚ) :
    (l.map (fun c : ℕ => (c : ℚ) / d)).sum = (l.sum : ℚ) / d := by
  induction l with
  | nil => simp
  | cons c l ih =>
    rw [List.map_cons, List.sum_cons, ih, List.sum_cons, Nat.cast_add, add_div]

lemma get_features_eq (chrom : String) (start stop : ℕ) (ref : RefAccessor)
    (k : ℕ) (nm : Bool) :
    get_features (chrom, start, stop) ref k nm =
      (ref chrom start stop).bind (fun seq => kfeat (nucfiltSub seq) k nm) :=
  rfl

lemma get_features_none {r : String × ℕ × ℕ} {ref : RefAccessor} {k : ℕ}
    {nm : Bool} (h : ref r.1 r.2.1 r.2.2 = none) :
    get_features r ref k nm = none := by
  obtain ⟨c, s, e⟩ := r
  rw [get_features_eq, h]
  rfl

/-- Every successful orchestrator run has one row per region, at the
region's input position, equal to that region's feature vector. -/
lemma regions_to_kmers_rows {regions : List (String × ℕ × ℕ)}
    {reference : RefAccessor} {k N : ℕ} {m : List (List F64)}
    (h : regions_to_kmers regions reference k N = some m) :
    ∀ i (hi : i < regions.length), ∃ row, m[i]? = some row ∧
      get_features (regions.get ⟨i, hi⟩) reference k true = some row := by
  intro i hi
  rw [regions_to_kmers] at h
  by_cases hN : N = 0
  · rw [if_pos hN] at h
    simp at h
  · rw [if_neg hN] at h
    cases hm : mapOpt (fun r => get_features r reference k true) regions with
    | none => rw [hm] at h; simp at h
    | some result =>
      rw [hm] at h
      simp at h
      have hlen : result.length = regions.length := mapOpt_length hm
      have hne : ¬ result.isEmpty := by
        rw [List.isEmpty_iff]
        intro hemp
        rw [hemp] at hlen
        simp at hlen
        omega
      rw [vstackSingle, if_neg hne] at h
      subst h
      have hi' : i < result.length := by omega
      refine ⟨result.get ⟨i, hi'⟩, ?_, mapOpt_get hm i hi hi'⟩
      rw [List.getElem?_eq_getElem hi']
      simp

/-! ### Claim theorems -/

/-- Claim C3: `kmer_index` computes `Σ_pos code(s[pos]) * 4^pos` with
A=0, G=1, C=2, T=3 and position 0 least significant; it maps every valid
k-length string into `[0, 4^k)` and is injective on valid strings of
equal length; for k=2 the 16 two-letter strings map onto all of `[0,16)`
with no collisions, with `AA ↦ 0` and `TT ↦ 15`. -/
theorem kmer_index_encoding :
    (∀ (l : List Char) (ds : List ℕ), mapOpt NUCS l = some ds →
      kmer_index l = some (∑ pos ∈ Finset.range ds.length, ds.getD pos 0 * 4 ^ pos)) ∧
    (∀ (l : List Char) (n : ℕ), (∀ c ∈ l, NUCS c ≠ none) →
      kmer_index l = some n → n < 4 ^ l.length) ∧
    (∀ l₁ l₂ : List Char, l₁.length = l₂.length →
      (∀ c ∈ l₁, NUCS c ≠ none) → (∀ c ∈ l₂, NUCS c ≠ none) →
      kmer_index l₁ = kmer_index l₂ → l₁ = l₂) ∧
    kmers2.map kmer_index = (List.range 16).map some ∧
    kmers2.Nodup ∧
    (∀ s ∈ kmers2, s.length = 2 ∧ ∀ c ∈ s, NUCS c ≠ none) ∧
    kmer_index ['A','A'] = some 0 ∧
    kmer_index ['T','T'] = some 15 := by
  refine ⟨?_, ?_, ?_, by decide, by decide, by decide, by decide, by decide⟩
  · intro l ds h
    rw [kmer_index_eq h, val4_eq_sum]
  · intro l n hv h
    obtain ⟨ds, hds⟩ := mapOpt_isSome hv
    rw [kmer_index_eq hds] at h
    injection h with h
    have hlt := val4_lt (digits_lt_four hds)
    rw [mapOpt_length hds] at hlt
    rw [← h]
    exact hlt
  · intro l₁ l₂ hlen hv₁ hv₂ heq
    obtain ⟨ds₁, hds₁⟩ := mapOpt_isSome hv₁
    obtain ⟨ds₂, hds₂⟩ := mapOpt_isSome hv₂
    rw [kmer_index_eq hds₁, kmer_index_eq hds₂] at heq
    injection heq with heq
    have hl : ds₁.length = ds₂.length := by
      rw [mapOpt_length hds₁, mapOpt_length hds₂, hlen]
    have : ds₁ = ds₂ :=
      val4_inj hl (digits_lt_four hds₁) (digits_lt_four hds₂) heq
    exact mapOpt_NUCS_inj hds₁ (this ▸ hds₂)

/-- Witness for C3: the closed form evaluated at the kmer `GT`. -/
theorem kmer_index_encoding_witness :
    kmer_index ['G','T'] =
      some (∑ pos ∈ Finset.range ([1, 3] : List ℕ).length,
        ([1, 3] : List ℕ).getD pos 0 * 4 ^ pos) :=
  kmer_index_encoding.1 ['G','T'] [1, 3] (by decide)

/-- Claim C8: on any input containing a character outside `{A,G,C,T}` the
encoder fails (the `KeyError` from `NUCS[nuc]`, the spec's
`InvalidNucleotide` contract failure) rather than returning a value or a
default; on fully valid input it never fails. -/
theorem kmer_index_invalid_char :
    (∀ s : List Char, (∃ c ∈ s, NUCS c = none) → kmer_index s = none) ∧
    (∀ s : List Char, (∀ c ∈ s, NUCS c ≠ none) → kmer_index s ≠ none) := by
  constructor
  · intro s h
    exact kmerIndexGo_none 0 0 h
  · intro s h
    obtain ⟨ds, hds⟩ := mapOpt_isSome h
    rw [kmer_index_eq hds]
    simp

/-- Witness for C8: `AN` fails, `AC` succeeds. -/
theorem kmer_index_invalid_char_witness :
    kmer_index ['A','N'] = none ∧ kmer_index ['A','C'] ≠ none :=
  ⟨kmer_index_invalid_char.1 ['A','N'] ⟨'N', by decide, by decide⟩,
   kmer_index_invalid_char.2 ['A','C'] (by decide)⟩

/-- Claim C5: for a sequence over `{A,G,C,T}` of length `L ≥ k`, the raw
(unnormalized) featurization is a vector of length exactly `4^k` whose
entries sum to `L - k + 1`, and every index no window encodes to is 0. -/
theorem kfeat_histogram_sum (seq : List Char) (k : ℕ)
    (hvalid : ∀ c ∈ seq, NUCS c ≠ none) (hk : k ≤ seq.length) :
    ∃ counts, kfeatCounts seq k = some counts ∧
      kfeat seq k false = some (counts.map (fun c : ℕ => F64.fin (c : ℚ))) ∧
      counts.length = 4 ^ k ∧
      counts.sum = seq.length - k + 1 ∧
      ∀ t, (∀ i < seq.length - k + 1, kmer_index (window seq k i) ≠ some t) →
        counts.getD t 0 = 0 := by
  obtain ⟨counts, hc, hlen, hsum, hzero⟩ := kfeatCounts_spec hvalid hk
  refine ⟨counts, hc, ?_, hlen, hsum, hzero⟩
  rw [kfeat, hc]
  simp

/-- Witness for C5: the raw histogram of `ACGT` with k=2. -/
theorem kfeat_histogram_sum_witness :
    ∃ counts, kfeatCounts ['A','C','G','T'] 2 = some counts ∧
      kfeat ['A','C','G','T'] 2 false = some (counts.map (fun c : ℕ => F64.fin (c : ℚ))) ∧
      counts.length = 4 ^ 2 ∧
      counts.sum = (['A','C','G','T'] : List Char).length - 2 + 1 ∧
      ∀ t, (∀ i < (['A','C','G','T'] : List Char).length - 2 + 1,
          kmer_index (window ['A','C','G','T'] 2 i) ≠ some t) →
        counts.getD t 0 = 0 :=
  kfeat_histogram_sum ['A','C','G','T'] 2 (by decide) (by decide)

/-- Claim C7: for a sequence over `{A,G,C,T}` of length `L ≥ k`, the
normalized featurization succeeds and its entries (each the raw count
divided by `L - k + 1`) sum to exactly 1 in the exact-rational model of
float64 arithmetic (hence within the spec's `1e-9` tolerance). -/
theorem kfeat_normalized_sum (seq : List Char) (k : ℕ)
    (hvalid : ∀ c ∈ seq, NUCS c ≠ none) (hk : k ≤ seq.length) :
    ∃ v, kfeat seq k true = some v ∧ finSum v = some 1 := by
  obtain ⟨counts, hc, hlen, hsum, _⟩ := kfeatCounts_spec hvalid hk
  have hWpos : (0 : ℤ) < numWindows seq k := by
    rw [numWindows]
    omega
  have hWne : numWindows seq k ≠ 0 := by omega
  have hmap : (fun c : ℕ => npDivInt (c : ℚ) (numWindows seq k)) =
      (fun c : ℕ => F64.fin ((c : ℚ) / ((numWindows seq k : ℤ) : ℚ))) := by
    funext c
    rw [npDivInt, if_neg hWne]
  refine ⟨counts.map (fun c : ℕ => npDivInt (c : ℚ) (numWindows seq k)), ?_, ?_⟩
  · rw [kfeat, hc]
    simp
  · rw [hmap, finSum_map_fin, sum_map_div, hsum]
    have hcast : ((seq.length - k + 1 : ℕ) : ℚ) = ((numWindows seq k : ℤ) : ℚ) := by
      rw [numWindows]
      push_cast [hk]
      ring
    rw [hcast, div_self]
    intro hzero
    rw [Int.cast_eq_zero] at hzero
    exact hWne hzero

/-- Witness for C7: the normalized featurization of `ACG` with k=1. -/
theorem kfeat_normalized_sum_witness :
    ∃ v, kfeat ['A','C','G'] 1 true = some v ∧ finSum v = some 1 :=
  kfeat_normalized_sum ['A','C','G'] 1 (by decide) (by decide)

/-- Claim C2 (divergence at the failing input): for `seq = "AC"`, `k = 3`,
`normalize = true` the code performs `ret /= 0` — numpy's `0.0 / 0` — so
every one of the 64 entries is NaN, not the all-zero vector the spec's
degenerate-case design calls for. -/
theorem kfeat_degenerate_nan :
    kfeat ['A','C'] 3 true = some (List.replicate 64 F64.nan) ∧
    F64.nan ≠ F64.fin 0 := by
  constructor
  · decide
  · decide

/-- Claim C10 (divergence): `kfeats` recurses into itself (not `kfeat`)
on each element, and iterating a Python string yields its characters, so
on any sequence list containing a non-empty sequence it exhausts every
recursion depth (`RecursionError`) instead of returning a matrix. -/
theorem kfeats_diverges (fuel : ℕ) (seqs : List (List Char)) (k : ℕ)
    (normalize : Bool) (h : ∃ s ∈ seqs, s ≠ []) :
    kfeats fuel seqs k normalize = none := by
  induction fuel generalizing seqs with
  | zero => rfl
  | succ fuel ih =>
    obtain ⟨s, hs, hne⟩ := h
    rw [kfeats]
    have hrec : kfeats fuel (s.map (fun c => [c])) k normalize = none := by
      apply ih
      cases s with
      | nil => exact absurd rfl hne
      | cons c t => exact ⟨[c], by simp, by simp⟩
    rw [mapOpt_none hs hrec]
    rfl

/-- Witness for C10: at recursion depth 1000 (Python's default limit),
`kfeats(["A"], 3, True)` still has not returned. -/
theorem kfeats_diverges_witness : kfeats 1000 [['A']] 3 true = none :=
  kfeats_diverges 1000 [['A']] 3 true ⟨['A'], by decide, by decide⟩

/-- Claim C6: `get_features` counts over the fetched sequence with every
non-`{A,C,G,T}` character removed (compacted, not masked): fetching
`"ACNGT"` with k=2 filters to `"ACGT"` and produces exactly the 3 windows
`AC, CG, GT`, not 4. -/
theorem get_features_filters :
    (∀ (s : List Char) (ref : RefAccessor) (chrom : String) (a b k : ℕ) (nm : Bool),
      ref chrom a b = some s →
      get_features (chrom, a, b) ref k nm = kfeat (nucfiltSub s) k nm) ∧
    nucfiltSub ['A','C','N','G','T'] = ['A','C','G','T'] ∧
    (numWindows (nucfiltSub ['A','C','N','G','T']) 2).toNat = 3 ∧
    (List.range (numWindows (nucfiltSub ['A','C','N','G','T']) 2).toNat).map
        (fun i => window (nucfiltSub ['A','C','N','G','T']) 2 i) =
      [['A','C'], ['C','G'], ['G','T']] := by
  refine ⟨?_, by decide, by decide, by decide⟩
  intro s ref chrom a b k nm h
  rw [get_features_eq, h]
  rfl

/-- Witness for C6: a concrete accessor returning `"ACNGT"`. -/
theorem get_features_filters_witness :
    get_features ("chr1", 0, 5) refC6 2 false =
      kfeat (nucfiltSub ['A','C','N','G','T']) 2 false :=
  get_features_filters.1 ['A','C','N','G','T'] refC6 "chr1" 0 5 2 false rfl

/-- Claim C1: for every region list, reference accessor, `k` and worker
count `N ≥ 1`, the orchestrator's output is identical to the
single-worker run (the worker count never influences the value), and
every successful run has, at each input position, exactly that region's
feature vector (`pool.map` order preservation). -/
theorem regions_to_kmers_order (regions : List (String × ℕ × ℕ))
    (reference : RefAccessor) (k N : ℕ) (hN : 1 ≤ N) :
    regions_to_kmers regions reference k N = regions_to_kmers regions reference k 1 ∧
    ∀ m, regions_to_kmers regions reference k N = some m →
      ∀ i (hi : i < regions.length), ∃ row, m[i]? = some row ∧
        get_features (regions.get ⟨i, hi⟩) reference k true = some row := by
  constructor
  · rw [regions_to_kmers, regions_to_kmers, if_neg (by omega : N ≠ 0),
      if_neg (by omega : (1 : ℕ) ≠ 0)]
  · intro m hm
    exact regions_to_kmers_rows hm

/-- Witness for C1: two workers and one worker agree on a concrete run. -/
theorem regions_to_kmers_order_witness :
    regions_to_kmers [("chr1", 0, 3)] refC1 1 2 =
      regions_to_kmers [("chr1", 0, 3)] refC1 1 1 :=
  (regions_to_kmers_order [("chr1", 0, 3)] refC1 1 2 (by omega)).1

/-- Claim C9: if the reference accessor fails on any one region of the
batch, the orchestrator returns the failure (the exception propagates out
of `pool.map`); and any successful run carries every region's row at its
input position — no row is ever silently omitted. -/
theorem regions_to_kmers_failfast (regions : List (String × ℕ × ℕ))
    (reference : RefAccessor) (k N : ℕ) :
    ((∃ r ∈ regions, reference r.1 r.2.1 r.2.2 = none) →
      regions_to_kmers regions reference k N = none) ∧
    (∀ m, regions_to_kmers regions reference k N = some m →
      ∀ i (hi : i < regions.length), ∃ row, m[i]? = some row ∧
        get_features (regions.get ⟨i, hi⟩) reference k true = some row) := by
  constructor
  · intro h
    obtain ⟨r, hr, hfail⟩ := h
    rw [regions_to_kmers]
    by_cases hN : N = 0
    · rw [if_pos hN]
    · rw [if_neg hN, mapOpt_none hr (get_features_none hfail)]
      rfl
  · intro m hm
    exact regions_to_kmers_rows hm

/-- Witness for C9: a failing accessor aborts a concrete batch. -/
theorem regions_to_kmers_failfast_witness :
    regions_to_kmers [("chr1", 0, 3)] refC9fail 3 1 = none :=
  (regions_to_kmers_failfast [("chr1", 0, 3)] refC9fail 3 1).1
    ⟨("chr1", 0, 3), by decide, rfl⟩

lemma refC4_row1_normalized :
    get_features ("chr1", 0, 10) refC4 1 true =
      some [F64.fin (2/5), F64.fin (1/5), F64.fin (1/5), F64.fin (1/5)] := by
  have hc : kfeatCounts (nucfiltSub ['A','C','G','T','A','C','G','T','A','A']) 1 =
      some [4, 2, 2, 2] := by decide
  have hr : refC4 "chr1" 0 10 = some ['A','C','G','T','A','C','G','T','A','A'] := by
    decide
  rw [get_features_eq, hr, Option.some_bind, kfeat, hc]
  norm_num [Option.map_some', npDivInt, numWindows, nucfiltSub]

lemma refC4_row2_normalized :
    get_features ("chr1", 100, 105) refC4 1 true =
      some [F64.fin (1/3), F64.fin (1/3), F64.fin (1/3), F64.fin 0] := by
  have hc : kfeatCounts (nucfiltSub ['A','C','G']) 1 = some [1, 1, 1, 0] := by
    decide
  have hr : refC4 "chr1" 100 105 = some ['A','C','G'] := by decide
  rw [get_features_eq, hr, Option.some_bind, kfeat, hc]
  norm_num [Option.map_some', npDivInt, numWindows, nucfiltSub]

lemma refC4_matrix :
    regions_to_kmers [("chr1", 0, 10), ("chr1", 100, 105)] refC4 1 1 =
      some [[F64.fin (2/5), F64.fin (1/5), F64.fin (1/5), F64.fin (1/5)],
            [F64.fin (1/3), F64.fin (1/3), F64.fin (1/3), F64.fin 0]] := by
  rw [regions_to_kmers, if_neg (by norm_num : (1 : ℕ) ≠ 0)]
  simp [mapOpt, refC4_row1_normalized, refC4_row2_normalized, vstackSingle]

/-- Claim C4 (counterexample): `regions_to_kmers` has no `normalize`
parameter — `partial(get_features, ref_fn=reference, k=k)` leaves it at
its default `True` — so on the end-to-end example it returns normalized
frequencies, not the raw counts `{A:4, C:2, G:2, T:2}` / `{A:1, C:1, G:1}`
the claim requires: row 1 entry 0 is `2/5`, not `4`. -/
theorem regions_to_kmers_normalize_counterexample :
    regions_to_kmers [("chr1", 0, 10), ("chr1", 100, 105)] refC4 1 1 =
      some [[F64.fin (2/5), F64.fin (1/5), F64.fin (1/5), F64.fin (1/5)],
            [F64.fin (1/3), F64.fin (1/3), F64.fin (1/3), F64.fin 0]] ∧
    F64.fin (2/5) ≠ F64.fin 4 := by
  refine ⟨refC4_matrix, ?_⟩
  simp only [ne_eq, F64.fin.injEq]
  norm_num

/-- Claim C4 (amended): the per-region `get_features` accepts and honors
`normalize`: with `normalize = false` it yields exactly the claimed raw
counts `[4,2,2,2]` and `[1,1,1,0]` at indices A=0, G=1, C=2, T=3, while
the orchestrator (which fixes `normalize = true`) returns the normalized
rows. -/
theorem get_features_normalize_flag :
    get_features ("chr1", 0, 10) refC4 1 false =
      some [F64.fin 4, F64.fin 2, F64.fin 2, F64.fin 2] ∧
    get_features ("chr1", 100, 105) refC4 1 false =
      some [F64.fin 1, F64.fin 1, F64.fin 1, F64.fin 0] ∧
    regions_to_kmers [("chr1", 0, 10), ("chr1", 100, 105)] refC4 1 1 =
      some [[F64.fin (2/5), F64.fin (1/5), F64.fin (1/5), F64.fin (1/5)],
            [F64.fin (1/3), F64.fin (1/3), F64.fin (1/3), F64.fin 0]] := by
  refine ⟨?_, ?_, refC4_matrix⟩
  · have hc : kfeatCounts (nucfiltSub ['A','C','G','T','A','C','G','T','A','A']) 1 =
        some [4, 2, 2, 2] := by decide
    have hr : refC4 "chr1" 0 10 = some ['A','C','G','T','A','C','G','T','A','A'] := by
      decide
    rw [get_features_eq, hr, Option.some_bind, kfeat, hc]
    norm_num [Option.map_some']
  · have hc : kfeatCounts (nucfiltSub ['A','C','G']) 1 = some [1, 1, 1, 0] := by
      decide
    have hr : refC4 "chr1" 100 105 = some ['A','C','G'] := by decide
    rw [get_features_eq, hr, Option.some_bind, kfeat, hc]
    norm_num [Option.map_some']

end Laytr
